import Mathlib

/-!
Verification of the eco-traffic-harmony reinforcement-learning core
(`src/pythonModel/rl_traffic_control.py`): the DQN control agent
(`TrafficRLAgent`) and the simulated environment (`TrafficEnvironment`).
Python floats are modelled as exact rationals, Python ints as `ℤ`/`ℕ`,
and every random draw is passed in explicitly as an oracle argument with
its support stated as a hypothesis where a claim needs it.
-/

namespace RLTraffic

/-! ### Agent hyperparameters (TrafficRLAgent.__init__) -/

/-- Discount rate `self.gamma = 0.95`. -/
def gamma : ℚ := 95 / 100

/-- Exploration floor `self.epsilon_min = 0.01`. -/
def epsilonMin : ℚ := 1 / 100

/-- Multiplicative decay `self.epsilon_decay = 0.995`. -/
def epsilonDecay : ℚ := 995 / 1000

/-- Replay capacity: `self.memory = deque(maxlen=2000)`. -/
def memoryCapacity : ℕ := 2000

/-! ### argmax with first-index tie-breaking (np.argmax) -/

/-- Maximum of a list of rationals (0 for the empty list); helper used to
express `np.argmax`'s first-maximum semantics. -/
def listMax : List ℚ → ℚ
  | [] => 0
  | [x] => x
  | x :: y :: ys => max x (listMax (y :: ys))

/-- Index of the first maximal element, as `np.argmax` computes it
(0 on the empty list). -/
def argmaxIdx : List ℚ → ℕ
  | [] => 0
  | [_] => 0
  | x :: y :: ys => if listMax (y :: ys) ≤ x then 0 else argmaxIdx (y :: ys) + 1

/-! ### Epsilon decay (TrafficRLAgent.replay, lines 140-142) -/

/-- The epsilon update performed at the end of a batch-processing `replay`
call: `if self.epsilon > self.epsilon_min: self.epsilon *= self.epsilon_decay`. -/
def decayEpsilon (eps : ℚ) : ℚ :=
  if epsilonMin < eps then eps * epsilonDecay else eps

/-- Epsilon after `n` batch-processing `replay` calls, starting from the
initial `self.epsilon = 1.0`. -/
def epsilonAfter : ℕ → ℚ
  | 0 => 1
  | n + 1 => decayEpsilon (epsilonAfter n)

/-! ### Replay buffer (deque with maxlen) -/

/-- Append to a deque of maximum length `cap`, evicting from the left when
the capacity is exceeded (`collections.deque(maxlen=cap).append`). -/
def pushBounded {α : Type} (cap : ℕ) (buf : List α) (x : α) : List α :=
  let b := buf ++ [x]
  if cap < b.length then b.drop (b.length - cap) else b

/-- A stored experience tuple `(state, action, reward, next_state, done)`. -/
structure Transition where
  state : List ℚ
  action : ℕ
  reward : ℚ
  nextState : List ℚ
  done : Bool
deriving DecidableEq

/-- `TrafficRLAgent.remember`: `self.memory.append(...)` on the
`deque(maxlen=2000)`. -/
def rememberPush (buf : List Transition) (t : Transition) : List Transition :=
  pushBounded memoryCapacity buf t

/-! ### Action selection (TrafficRLAgent.act)

The primary network is abstracted as a function from the observation to the
list of action-value estimates; the two random draws that the epsilon-greedy
branch may consume are oracle arguments. -/

/-- `TrafficRLAgent.act`: epsilon-greedy action selection. `randUniform` is
the oracle for `np.random.rand()` and `randAction` the oracle for
`random.randrange(self.action_size)`; with `training = false` the condition
short-circuits and no random draw is consumed. -/
def act (eps : ℚ) (estimate : List ℚ → List ℚ) (training : Bool)
    (randUniform : ℚ) (randAction : ℕ) (s : List ℚ) : ℕ :=
  if training = true ∧ randUniform ≤ eps then randAction
  else argmaxIdx (estimate s)

/-! ### Learning update (TrafficRLAgent.replay) -/

/-- The double-DQN learning target for one sampled transition:
`target = reward`, plus, when not done,
`gamma * target_q_values[argmax(primary.predict(next_state))]`. -/
def computeTarget (r : ℚ) (done : Bool) (primaryNextQ targetNextQ : List ℚ) : ℚ :=
  if done then r
  else r + gamma * targetNextQ.getD (argmaxIdx primaryNextQ) 0

/-- The per-sample fit target: `target_f = self.primary_network.predict(state)`
with `target_f[0][action] = target`. -/
def targetVector (q : List ℚ) (a : ℕ) (t : ℚ) : List ℚ :=
  q.set a t

/-- Agent learning state: the replay memory, the exploration rate, and the
parameters of the primary and target networks (of abstract parameter type). -/
structure Agent (θ : Type) where
  memory : List Transition
  epsilon : ℚ
  primary : θ
  target : θ

/-- One iteration of the `for state, action, reward, next_state, done in
minibatch` loop of `replay`: computes the double-DQN target, overwrites the
chosen action's entry in the predicted value vector, and fits the primary
network on it. The target network parameters `tgt` are fixed for the whole
batch; the primary parameters thread through the fold. -/
def replayStep {θ : Type} (estimate : θ → List ℚ → List ℚ)
    (fit : θ → List ℚ → List ℚ → θ) (tgt : θ) (prim : θ) (tr : Transition) : θ :=
  let target := computeTarget tr.reward tr.done
    (estimate prim tr.nextState) (estimate tgt tr.nextState)
  fit prim tr.state (targetVector (estimate prim tr.state) tr.action target)

/-- `TrafficRLAgent.replay(batch_size)`: returns immediately when
`len(self.memory) < batch_size`; otherwise processes the sampled
`minibatch` (the result of `random.sample`, passed as an oracle) one
transition at a time and then decays epsilon. -/
def replay {θ : Type} (estimate : θ → List ℚ → List ℚ)
    (fit : θ → List ℚ → List ℚ → θ) (batchSize : ℕ)
    (minibatch : List Transition) (ag : Agent θ) : Agent θ :=
  if ag.memory.length < batchSize then ag
  else
    { ag with
      primary := minibatch.foldl (replayStep estimate fit ag.target) ag.primary
      epsilon := decayEpsilon ag.epsilon }

/-! ### Environment (TrafficEnvironment)

Intersections are held in a Python dict keyed by integer id; we model it as
an association list with unique keys, updated in place. Every random draw of
`step` and `_update_traffic_flow` is an oracle argument: `FlowRand` carries
the two `np.random.randint(0, 3)` draws of the signal-processing block, and
`ArrRand` the per-direction outcome of the arrival-probability comparison
together with the `np.random.randint(1, 4)` arrival sizes. -/

/-- Mutable per-intersection state: the two queue lengths, the phase
(`0`: NS green, `1`: EW green) and the time spent in the current phase. -/
structure Inter where
  queueNS : ℤ
  queueEW : ℤ
  phase : ℤ
  timeInPhase : ℕ
deriving DecidableEq

/-- Oracle for the two `np.random.randint(0, 3)` draws of the per-action
traffic-flow block: the extra service capacity and the red-direction growth. -/
structure FlowRand where
  flowExtra : ℤ
  redGrowth : ℤ

/-- Oracle for `_update_traffic_flow` at one intersection: whether each
direction's arrival-probability comparison succeeded, and the corresponding
`np.random.randint(1, 4)` arrival counts. -/
structure ArrRand where
  arriveNS : Bool
  amtNS : ℤ
  arriveEW : Bool
  amtEW : ℤ

/-- The support of the flow-block random draws (`randint(0, 3)` twice). -/
def GoodFlow (r : FlowRand) : Prop :=
  0 ≤ r.flowExtra ∧ r.flowExtra < 3 ∧ 0 ≤ r.redGrowth ∧ r.redGrowth < 3

/-- The support of the arrival random draws (`randint(1, 4)` per direction). -/
def GoodArr (r : ArrRand) : Prop :=
  1 ≤ r.amtNS ∧ r.amtNS < 4 ∧ 1 ≤ r.amtEW ∧ r.amtEW < 4

instance (r : FlowRand) : Decidable (GoodFlow r) := by
  unfold GoodFlow; infer_instance

instance (r : ArrRand) : Decidable (GoodArr r) := by
  unfold GoodArr; infer_instance

/-- The action-processing block of `TrafficEnvironment.step`: action `0`
keeps the phase, `1` toggles it, `2`/`3` force NS/EW green, resetting
`time_in_phase` to 0 exactly on a change; any other code matches no branch
and acts like `0`. -/
def applyAction (a : ℕ) (it : Inter) : Inter :=
  if a = 1 then { it with phase := 1 - it.phase, timeInPhase := 0 }
  else if a = 2 then
    (if it.phase = 0 then it else { it with phase := 0, timeInPhase := 0 })
  else if a = 3 then
    (if it.phase = 1 then it else { it with phase := 1, timeInPhase := 0 })
  else it

/-- The traffic-flow block of `TrafficEnvironment.step`: the green direction
discharges `min(3 + randint(0,3), queue)` vehicles (floored at 0), the red
direction grows by `randint(0,3)` (capped at 30). -/
def applyFlow (r : FlowRand) (it : Inter) : Inter :=
  if it.phase = 0 then
    { it with
      queueNS := max 0 (it.queueNS - min (3 + r.flowExtra) it.queueNS)
      queueEW := min 30 (it.queueEW + r.redGrowth) }
  else
    { it with
      queueEW := max 0 (it.queueEW - min (3 + r.flowExtra) it.queueEW)
      queueNS := min 30 (it.queueNS + r.redGrowth) }

/-- The whole per-intersection body of the actions loop of `step`, in source
order: process the action, process traffic flow, increment `time_in_phase`,
then compute the reward
`-(queue_ns + queue_ew + (3 if time_in_phase == 0 else 0))` on the updated
intersection. Returns the updated intersection and its reward. -/
def processInter (a : ℕ) (r : FlowRand) (it : Inter) : Inter × ℤ :=
  let it1 := applyFlow r (applyAction a it)
  let it2 := { it1 with timeInPhase := it1.timeInPhase + 1 }
  (it2, -(it2.queueNS + it2.queueEW + (if it2.timeInPhase = 0 then 3 else 0)))

/-- `_update_traffic_flow` at one intersection: each direction independently
receives `randint(1, 4)` new vehicles (capped at 30) when its probability
draw succeeded. -/
def applyArrival (r : ArrRand) (it : Inter) : Inter :=
  { it with
    queueNS := if r.arriveNS then min 30 (it.queueNS + r.amtNS) else it.queueNS
    queueEW := if r.arriveEW then min 30 (it.queueEW + r.amtEW) else it.queueEW }

/-- In-place value update of the intersection dict at key `i`
(keys are unique, so this is `self.intersections[i] = v`). -/
def updEnv (env : List (ℕ × Inter)) (i : ℕ) (v : Inter) : List (ℕ × Inter) :=
  env.map fun p => if p.1 = i then (i, v) else p

/-- Accumulator of the actions loop: the intersection dict, the `rewards`
dict and the `info` dict built so far. -/
structure StepAcc where
  inters : List (ℕ × Inter)
  rewards : List (ℕ × ℤ)
  info : List (ℕ × Inter)

/-- One iteration of the `for i, action in actions.items()` loop: an id
absent from the dict is skipped (`if i not in self.intersections: continue`);
otherwise the intersection is processed and its reward and info entries are
recorded. -/
def stepOne (rand : ℕ → FlowRand) (acc : StepAcc) (ia : ℕ × ℕ) : StepAcc :=
  match acc.inters.lookup ia.1 with
  | none => acc
  | some it =>
    let p := processInter ia.2 (rand ia.1) it
    { inters := updEnv acc.inters ia.1 p.1
      rewards := acc.rewards ++ [(ia.1, p.2)]
      info := acc.info ++ [(ia.1, p.1)] }

/-- `TrafficEnvironment.step` restricted to its state-and-reward content:
first the exogenous arrival process updates every intersection, then the
actions loop runs over the supplied (id, action) pairs. The step counter,
clock and terminal flag are independent of this data and are not needed by
the claims below. -/
def stepEnv (arr : ℕ → ArrRand) (rand : ℕ → FlowRand)
    (env : List (ℕ × Inter)) (actions : List (ℕ × ℕ)) : StepAcc :=
  let env1 := env.map fun p => (p.1, applyArrival (arr p.1) p.2)
  actions.foldl (stepOne rand) ⟨env1, [], []⟩

/-- `TrafficEnvironment.reset` at one intersection: queues take fresh
`np.random.randint(0, 10)` draws, phase and timer return to 0. -/
def resetInter (rNS rEW : ℤ) : Inter :=
  ⟨rNS, rEW, 0, 0⟩

/-- The per-tick inputs of a run: the two random oracles and the actions map. -/
structure TickInput where
  arr : ℕ → ArrRand
  rand : ℕ → FlowRand
  actions : List (ℕ × ℕ)

/-- Iterated `step`: the environment after a whole sequence of ticks. -/
def runEnv (env : List (ℕ × Inter)) : List TickInput → List (ℕ × Inter)
  | [] => env
  | t :: ts => runEnv (stepEnv t.arr t.rand env t.actions).inters ts

/-- The queue-clamping invariant: both queues lie in `[0, 30]`. -/
def InvQ (it : Inter) : Prop :=
  0 ≤ it.queueNS ∧ it.queueNS ≤ 30 ∧ 0 ≤ it.queueEW ∧ it.queueEW ≤ 30

instance (it : Inter) : Decidable (InvQ it) := by
  unfold InvQ; infer_instance

/-! ### Intersection placement (TrafficEnvironment._initialize_intersections) -/

/-- `np.linspace(0, stop, num, dtype=int)` for integer `stop ≥ 0`: `num`
evenly spaced points from 0 to `stop`, truncated to integers. -/
def linspaceInt (stop : ℤ) (num : ℕ) : List ℤ :=
  (List.range num).map fun i : ℕ =>
    if num ≤ 1 then 0 else (i : ℤ) * stop / ((num : ℤ) - 1)

/-- The nested placement loop: one position per (row, column) pair drawn
from `linspace(0, rows-1, int(sqrt(n)))` × `linspace(0, cols-1, int(sqrt(n)))`. -/
def gridPositions (rows cols n : ℕ) : List (ℤ × ℤ) :=
  (linspaceInt ((rows : ℤ) - 1) (Nat.sqrt n)).flatMap fun r =>
    (linspaceInt ((cols : ℤ) - 1) (Nat.sqrt n)).map fun c => (r, c)

/-- `_initialize_intersections`: consecutive ids from 0, one fresh
intersection (queues 0, NS green, timer 0) per grid position. -/
def initIntersections (rows cols n : ℕ) : List (ℕ × ((ℤ × ℤ) × Inter)) :=
  (gridPositions rows cols n).enum.map fun p => (p.1, (p.2, ⟨0, 0, 0, 0⟩))

/-! ### Properties of the first-maximum argmax -/

lemma getD_le_listMax (l : List ℚ) : ∀ i, i < l.length → l.getD i 0 ≤ listMax l := by
  induction l with
  | nil => intro i h; simp at h
  | cons x xs ih =>
    intro i h
    cases xs with
    | nil =>
      have : i = 0 := by simpa using Nat.lt_one_iff.mp (by simpa using h)
      subst this; simp [listMax]
    | cons y ys =>
      cases i with
      | zero => simp [listMax]
      | succ j =>
        have hj : j < (y :: ys).length := by simpa using h
        calc (x :: y :: ys).getD (j + 1) 0 = (y :: ys).getD j 0 := by simp
          _ ≤ listMax (y :: ys) := ih j hj
          _ ≤ listMax (x :: y :: ys) := by simp [listMax]

lemma getD_argmax_eq_listMax (l : List ℚ) (h : l ≠ []) :
    l.getD (argmaxIdx l) 0 = listMax l := by
  induction l with
  | nil => simp at h
  | cons x xs ih =>
    cases xs with
    | nil => simp [argmaxIdx, listMax]
    | cons y ys =>
      by_cases hc : listMax (y :: ys) ≤ x
      · simp [argmaxIdx, listMax, hc, max_eq_left hc]
      · have hx : x ≤ listMax (y :: ys) := le_of_lt (not_le.mp hc)
        simp only [argmaxIdx, listMax, if_neg hc, List.getD_cons_succ,
          max_eq_right hx]
        exact ih (by simp)

lemma argmaxIdx_lt_length (l : List ℚ) (h : l ≠ []) : argmaxIdx l < l.length := by
  induction l with
  | nil => simp at h
  | cons x xs ih =>
    cases xs with
    | nil => simp [argmaxIdx]
    | cons y ys =>
      by_cases hc : listMax (y :: ys) ≤ x
      · simp [argmaxIdx, hc]
      · have h2 := ih (by simp)
        simp only [argmaxIdx, if_neg hc, List.length_cons] at h2 ⊢
        omega

lemma getD_lt_listMax_of_lt_argmax (l : List ℚ) :
    ∀ i, i < argmaxIdx l → l.getD i 0 < listMax l := by
  induction l with
  | nil => intro i h; simp [argmaxIdx] at h
  | cons x xs ih =>
    intro i h
    cases xs with
    | nil => simp [argmaxIdx] at h
    | cons y ys =>
      by_cases hc : listMax (y :: ys) ≤ x
      · simp [argmaxIdx, hc] at h
      · simp only [argmaxIdx, if_neg hc] at h
        have hx : x < listMax (y :: ys) := not_le.mp hc
        cases i with
        | zero =>
          simpa [listMax, max_eq_right (le_of_lt hx)] using hx
        | succ j =>
          have hj : j < argmaxIdx (y :: ys) := by omega
          have := ih j hj
          simpa [listMax, max_eq_right (le_of_lt hx)] using this

/-! ### The epsilon trajectory -/

set_option maxRecDepth 4000

lemma pow918_nat : 200 ^ 918 < 199 ^ 918 * 100 := by decide

lemma pow919_nat : 199 ^ 919 * 100 < 200 ^ 919 := by decide

lemma ratio_pow_gt_min (n : ℕ) (h : n ≤ 918) :
    (1 : ℚ) / 100 < (199 / 200 : ℚ) ^ n := by
  have h918 : (1 : ℚ) / 100 < (199 / 200 : ℚ) ^ 918 := by
    have hq : (200 : ℚ) ^ 918 < (199 : ℚ) ^ 918 * 100 := by exact_mod_cast pow918_nat
    rw [div_pow, div_lt_div_iff₀ (by norm_num) (by positivity)]
    linarith
  have hmono : (199 / 200 : ℚ) ^ 918 ≤ (199 / 200 : ℚ) ^ n :=
    pow_le_pow_of_le_one (by norm_num) (by norm_num) h
  linarith

lemma epsilonAfter_eq_pow : ∀ n, n ≤ 919 → epsilonAfter n = (199 / 200 : ℚ) ^ n := by
  intro n hn
  induction n with
  | zero => simp [epsilonAfter]
  | succ m ih =>
    have hm : m ≤ 918 := by omega
    have hgt : epsilonMin < (199 / 200 : ℚ) ^ m := by
      simpa [epsilonMin] using ratio_pow_gt_min m hm
    rw [epsilonAfter, ih (by omega), decayEpsilon, if_pos hgt, pow_succ]
    congr 1
    norm_num [epsilonDecay]

lemma epsilonAfter_pos_lb (n : ℕ) :
    0 < epsilonAfter n ∧ epsilonMin * epsilonDecay ≤ epsilonAfter n := by
  induction n with
  | zero =>
    constructor <;> norm_num [epsilonAfter, epsilonMin, epsilonDecay]
  | succ m ih =>
    obtain ⟨h0, h1⟩ := ih
    rw [epsilonAfter, decayEpsilon]
    split_ifs with hc
    · refine ⟨mul_pos h0 (by norm_num [epsilonDecay]), ?_⟩
      exact mul_le_mul_of_nonneg_right (le_of_lt hc) (by norm_num [epsilonDecay])
    · exact ⟨h0, h1⟩

/-- Claim C2 counterexample: starting from the initial epsilon 1.0, the
919th batch-processing learning step pushes epsilon strictly below
`epsilon_min = 0.01`, and that step is therefore not the claimed update
`eps := max(epsilon_min, eps * epsilon_decay)`. -/
theorem epsilon_drops_below_min :
    epsilonAfter 919 < epsilonMin ∧
    epsilonAfter 919 ≠ max epsilonMin (epsilonAfter 918 * epsilonDecay) := by
  have h1 : epsilonAfter 919 < epsilonMin := by
    rw [epsilonAfter_eq_pow 919 le_rfl]
    show (199 / 200 : ℚ) ^ 919 < 1 / 100
    have hq : (199 : ℚ) ^ 919 * 100 < (200 : ℚ) ^ 919 := by exact_mod_cast pow919_nat
    rw [div_pow, div_lt_div_iff₀ (by positivity) (by norm_num)]
    linarith
  refine ⟨h1, fun hEq => ?_⟩
  have h2 : epsilonMin ≤ epsilonAfter 919 := hEq ▸ le_max_left _ _
  linarith

/-- Claim C2 (amended): across batch-processing `replay` calls, epsilon is
non-increasing and bounded below by `epsilon_min * epsilon_decay = 0.00995`
(not by `epsilon_min`); the decay multiplies by `epsilon_decay` exactly when
epsilon still exceeds `epsilon_min` and leaves it unchanged otherwise, so a
single step may land strictly below `epsilon_min`, after which epsilon is
constant. -/
theorem epsilon_monotone_floor (n : ℕ) :
    epsilonAfter (n + 1) ≤ epsilonAfter n ∧
    epsilonMin * epsilonDecay ≤ epsilonAfter n ∧
    (epsilonAfter n ≤ epsilonMin → epsilonAfter (n + 1) = epsilonAfter n) := by
  obtain ⟨h0, h1⟩ := epsilonAfter_pos_lb n
  refine ⟨?_, h1, ?_⟩
  · rw [epsilonAfter, decayEpsilon]
    split_ifs with hc
    · exact mul_le_of_le_one_right (le_of_lt h0) (by norm_num [epsilonDecay])
    · exact le_rfl
  · intro hle
    rw [epsilonAfter, decayEpsilon, if_neg (not_lt.mpr hle)]

/-- Claim C2 witness: the amended theorem instantiated at the first decay
step, where the definitions evaluate concretely. -/
theorem epsilon_monotone_floor_witness :
    epsilonAfter 1 ≤ epsilonAfter 0 ∧
    epsilonMin * epsilonDecay ≤ epsilonAfter 0 ∧
    (epsilonAfter 0 ≤ epsilonMin → epsilonAfter 1 = epsilonAfter 0) :=
  epsilon_monotone_floor 0

/-! ### Claim theorems about the environment reward -/

/-- Claim C1: the switching penalty is dead code. `step` increments
`time_in_phase` before testing `time_in_phase == 0`, so the test never
succeeds and every reward equals `-(queue_ns + queue_ew)` with no `-3`
term. At the concrete failing input (queues 5/5, NS green for 7 ticks,
action 1 = switch phase, both random draws 0) the code returns reward
`-7`, while the claimed reward for a tick with a phase change is
`-(5 + 2 + 3) = -10`. -/
theorem switch_penalty_never_applied :
    processInter 1 ⟨0, 0⟩ ⟨5, 5, 0, 7⟩ = (⟨5, 2, 1, 1⟩, -7) ∧
    (∀ (a : ℕ) (r : FlowRand) (it : Inter),
      (processInter a r it).2 =
        -((processInter a r it).1.queueNS + (processInter a r it).1.queueEW)) ∧
    (-7 : ℤ) ≠ -(5 + 2 + 3) := by
  refine ⟨by decide, ?_, by decide⟩
  intro a r it
  simp [processInter]

/-! ### Claim theorem for the double-DQN target -/

/-- Claim C3: the learning target follows the double-DQN rule — for a
terminal transition it is the bare reward, otherwise the reward plus
`gamma` times the target network's estimate at the primary network's
arg-max action; on the concrete data of the claim the chosen next action
is 1 and the target is `-2.2`. -/
theorem double_dqn_target :
    (∀ (r : ℚ) (pq tq : List ℚ), computeTarget r true pq tq = r) ∧
    (∀ (r : ℚ) (pq tq : List ℚ),
      computeTarget r false pq tq = r + gamma * tq.getD (argmaxIdx pq) 0) ∧
    argmaxIdx [1, 5, 3, 2] = 1 ∧
    computeTarget (-6) false [1, 5, 3, 2] [4, 4, 4, 4] = -11 / 5 := by
  refine ⟨fun r pq tq => rfl, fun r pq tq => rfl, rfl, ?_⟩
  norm_num [computeTarget, argmaxIdx, listMax, gamma]

/-! ### Claim theorems about replay and action selection -/

/-- Claim C4: a `replay(batch_size)` call with fewer stored transitions than
the batch size returns immediately, leaving the whole agent state (memory,
epsilon, primary and target parameters) unchanged, whatever minibatch the
sampler would have produced. -/
theorem replay_noop_of_small_memory (θ : Type) (estimate : θ → List ℚ → List ℚ)
    (fit : θ → List ℚ → List ℚ → θ) (batchSize : ℕ)
    (minibatch : List Transition) (ag : Agent θ)
    (h : ag.memory.length < batchSize) :
    replay estimate fit batchSize minibatch ag = ag := by
  rw [replay, if_pos h]

/-- Claim C4 witness: a concrete agent with an empty memory and batch size 3
is returned unchanged, even under a fit function that would change the
primary parameters. -/
theorem replay_noop_of_small_memory_witness :
    (Agent.mk [] 1 0 0 : Agent ℕ).memory.length < 3 ∧
    replay (fun _ _ => []) (fun p _ _ => p + 1) 3 []
      (Agent.mk [] 1 0 0 : Agent ℕ) = Agent.mk [] 1 0 0 :=
  ⟨by decide, replay_noop_of_small_memory ℕ (fun _ _ => []) (fun p _ _ => p + 1)
    3 [] (Agent.mk [] 1 0 0) (by decide)⟩

/-- Claim C6: the fit target submitted for one sampled transition is the
primary network's current estimate on the state with exactly the chosen
action's index overwritten by the computed target: same length, entry `a`
equal to the target, every other in-range entry unchanged; and `replayStep`
submits exactly this vector to the fit operation. -/
theorem target_vector_frame (q : List ℚ) (a : ℕ) (t : ℚ)
    (ha : a < q.length) :
    (targetVector q a t).length = q.length ∧
    (targetVector q a t).getD a 0 = t ∧
    (∀ j, j < q.length → j ≠ a → (targetVector q a t).getD j 0 = q.getD j 0) ∧
    (∀ (θ : Type) (estimate : θ → List ℚ → List ℚ)
      (fit : θ → List ℚ → List ℚ → θ) (tgt prim : θ) (tr : Transition),
      replayStep estimate fit tgt prim tr =
        fit prim tr.state
          (targetVector (estimate prim tr.state) tr.action
            (computeTarget tr.reward tr.done
              (estimate prim tr.nextState) (estimate tgt tr.nextState)))) := by
  refine ⟨by simp [targetVector], ?_, ?_, fun θ estimate fit tgt prim tr => rfl⟩
  · rw [List.getD_eq_getElem _ _ (by simpa [targetVector] using ha)]
    exact List.getElem_set_self _
  · intro j hj hne
    rw [List.getD_eq_getElem _ _ (by simpa [targetVector] using hj),
      List.getD_eq_getElem _ _ hj]
    exact List.getElem_set_ne (fun hh => hne hh.symm) _

/-- Claim C6 witness: the frame property evaluated on a concrete
three-entry estimate with action index 1 overwritten. -/
theorem target_vector_frame_witness :
    (1 < ([1, 2, 3] : List ℚ).length) ∧
    ((targetVector [1, 2, 3] 1 9).length = ([1, 2, 3] : List ℚ).length ∧
      (targetVector [1, 2, 3] 1 9).getD 1 0 = 9 ∧
      (∀ j, j < ([1, 2, 3] : List ℚ).length → j ≠ 1 →
        (targetVector [1, 2, 3] 1 9).getD j 0 = ([1, 2, 3] : List ℚ).getD j 0) ∧
      (∀ (θ : Type) (estimate : θ → List ℚ → List ℚ)
        (fit : θ → List ℚ → List ℚ → θ) (tgt prim : θ) (tr : Transition),
        replayStep estimate fit tgt prim tr =
          fit prim tr.state
            (targetVector (estimate prim tr.state) tr.action
              (computeTarget tr.reward tr.done
                (estimate prim tr.nextState) (estimate tgt tr.nextState))))) :=
  ⟨by simp, target_vector_frame [1, 2, 3] 1 9 (by simp)⟩

/-- Claim C7: with `training = False`, `act` consumes no random draw — its
result is independent of both random oracles — and returns the arg-max
index of the primary network's estimates; the arg-max index is in range,
carries a maximal value, and every strictly earlier index carries a
strictly smaller value (first-index tie-breaking). -/
theorem act_greedy_deterministic (eps : ℚ) (estimate : List ℚ → List ℚ)
    (r1 r2 : ℚ) (a1 a2 : ℕ) (s : List ℚ) (l : List ℚ) (i : ℕ)
    (hi : i < l.length) :
    act eps estimate false r1 a1 s = act eps estimate false r2 a2 s ∧
    act eps estimate false r1 a1 s = argmaxIdx (estimate s) ∧
    argmaxIdx l < l.length ∧
    l.getD i 0 ≤ l.getD (argmaxIdx l) 0 ∧
    (i < argmaxIdx l → l.getD i 0 < l.getD (argmaxIdx l) 0) := by
  have hne : l ≠ [] := by rintro rfl; simp at hi
  have hmax := getD_argmax_eq_listMax l hne
  refine ⟨by simp [act], by simp [act], argmaxIdx_lt_length l hne, ?_, ?_⟩
  · rw [hmax]; exact getD_le_listMax l i hi
  · intro hlt
    rw [hmax]; exact getD_lt_listMax_of_lt_argmax l i hlt

/-- Claim C7 witness: greedy selection on the concrete estimate
`[1, 5, 5, 2]`, whose first maximal index is 1, checked at index 2 (the
tied later index). -/
theorem act_greedy_deterministic_witness :
    (2 < ([1, 5, 5, 2] : List ℚ).length) ∧
    (act (1 / 2) (fun _ => [1, 5, 5, 2]) false (1 / 4) 3 [] =
        act (1 / 2) (fun _ => [1, 5, 5, 2]) false (3 / 4) 0 [] ∧
      act (1 / 2) (fun _ => [1, 5, 5, 2]) false (1 / 4) 3 [] =
        argmaxIdx ((fun _ : List ℚ => ([1, 5, 5, 2] : List ℚ)) []) ∧
      argmaxIdx [1, 5, 5, 2] < ([1, 5, 5, 2] : List ℚ).length ∧
      ([1, 5, 5, 2] : List ℚ).getD 2 0 ≤
        ([1, 5, 5, 2] : List ℚ).getD (argmaxIdx [1, 5, 5, 2]) 0 ∧
      (2 < argmaxIdx [1, 5, 5, 2] →
        ([1, 5, 5, 2] : List ℚ).getD 2 0 <
          ([1, 5, 5, 2] : List ℚ).getD (argmaxIdx [1, 5, 5, 2]) 0)) :=
  ⟨by simp, act_greedy_deterministic (1 / 2) (fun _ => [1, 5, 5, 2])
    (1 / 4) (3 / 4) 3 0 [] [1, 5, 5, 2] 2 (by simp)⟩

/-! ### Claim theorem for the replay buffer -/

lemma pushBounded_eq_drop {α : Type} (cap : ℕ) (buf : List α) (x : α) :
    pushBounded cap buf x = (buf ++ [x]).drop ((buf ++ [x]).length - cap) := by
  rw [pushBounded]
  split_ifs with hc
  · rfl
  · have : (buf ++ [x]).length - cap = 0 := by simp at hc ⊢; omega
    rw [this, List.drop_zero]

lemma length_pushBounded_le {α : Type} (cap : ℕ) (buf : List α) (x : α) :
    (pushBounded cap buf x).length ≤ cap := by
  rw [pushBounded_eq_drop cap buf x, List.length_drop]
  simp
  omega

lemma foldl_pushBounded {α : Type} (cap : ℕ) :
    ∀ (ts buf : List α), buf.length ≤ cap →
      List.foldl (pushBounded cap) buf ts =
        (buf ++ ts).drop ((buf ++ ts).length - cap) := by
  intro ts
  induction ts with
  | nil =>
    intro buf h
    have h0 : buf.length - cap = 0 := by omega
    simp [h0]
  | cons t ts ih =>
    intro buf h
    rw [List.foldl_cons, ih (pushBounded cap buf t) (length_pushBounded_le cap buf t),
      pushBounded_eq_drop cap buf t]
    have hd : (buf ++ [t]).length - cap ≤ (buf ++ [t]).length := by omega
    rw [← List.drop_append_of_le_length hd, List.drop_drop]
    have hassoc : buf ++ [t] ++ ts = buf ++ t :: ts := by simp
    rw [hassoc]
    congr 1
    simp [List.length_drop]
    omega

/-- Claim C8: the replay buffer is a bounded FIFO. Filling any
`pushBounded` buffer of capacity `cap` from empty leaves exactly the most
recent `cap` insertions in insertion order and never more than `cap`
entries; in particular `remember`'s buffer (capacity 2000) holds exactly
the last 2000 of `2000 + k` inserted transitions, in order, after the
oldest `k` were evicted. -/
theorem buffer_bounded_fifo (α : Type) (cap : ℕ) (ts : List α)
    (us : List Transition) (k : ℕ) (hk : 0 < k)
    (hlen : us.length = memoryCapacity + k) :
    List.foldl (pushBounded cap) [] ts = ts.drop (ts.length - cap) ∧
    (List.foldl (pushBounded cap) [] ts).length ≤ cap ∧
    List.foldl rememberPush [] us = us.drop k ∧
    (List.foldl rememberPush [] us).length = memoryCapacity := by
  have hmain := foldl_pushBounded cap ts [] (by simp)
  simp only [List.nil_append] at hmain
  have hrem : List.foldl rememberPush [] us =
      us.drop (us.length - memoryCapacity) := by
    have := foldl_pushBounded memoryCapacity us [] (by simp)
    simpa only [List.nil_append] using this
  have hdk : us.length - memoryCapacity = k := by omega
  refine ⟨hmain, ?_, ?_, ?_⟩
  · rw [hmain, List.length_drop]; omega
  · rw [hrem, hdk]
  · rw [hrem, List.length_drop]; omega

/-- Claim C8 witness: capacity-3 buffer fed five values keeps the last
three, and the capacity-2000 `remember` buffer fed 2001 transitions drops
exactly the first one. -/
theorem buffer_bounded_fifo_witness :
    0 < 1 ∧
    (List.replicate (memoryCapacity + 1) (Transition.mk [] 0 0 [] false)).length =
      memoryCapacity + 1 ∧
    (List.foldl (pushBounded 3) [] [1, 2, 3, 4, 5] =
        ([1, 2, 3, 4, 5] : List ℕ).drop (([1, 2, 3, 4, 5] : List ℕ).length - 3) ∧
      (List.foldl (pushBounded 3) [] ([1, 2, 3, 4, 5] : List ℕ)).length ≤ 3 ∧
      List.foldl rememberPush []
          (List.replicate (memoryCapacity + 1) (Transition.mk [] 0 0 [] false)) =
        (List.replicate (memoryCapacity + 1) (Transition.mk [] 0 0 [] false)).drop 1 ∧
      (List.foldl rememberPush []
          (List.replicate (memoryCapacity + 1) (Transition.mk [] 0 0 [] false))).length =
        memoryCapacity) :=
  ⟨Nat.one_pos, by simp,
    buffer_bounded_fifo ℕ 3 [1, 2, 3, 4, 5]
      (List.replicate (memoryCapacity + 1) (Transition.mk [] 0 0 [] false)) 1
      Nat.one_pos (by simp)⟩

/-! ### Queue clamping (claim C5) -/

lemma invQ_applyAction (a : ℕ) (it : Inter) (h : InvQ it) :
    InvQ (applyAction a it) := by
  unfold applyAction
  split_ifs <;> simpa [InvQ] using h

lemma invQ_applyFlow (r : FlowRand) (it : Inter) (hr : GoodFlow r) (h : InvQ it) :
    InvQ (applyFlow r it) := by
  obtain ⟨g1, g2, g3, g4⟩ := hr
  obtain ⟨h1, h2, h3, h4⟩ := h
  unfold applyFlow
  split_ifs <;> refine ⟨?_, ?_, ?_, ?_⟩ <;> simp <;> omega

lemma invQ_applyArrival (r : ArrRand) (it : Inter) (hr : GoodArr r) (h : InvQ it) :
    InvQ (applyArrival r it) := by
  obtain ⟨g1, g2, g3, g4⟩ := hr
  obtain ⟨h1, h2, h3, h4⟩ := h
  unfold applyArrival
  refine ⟨?_, ?_, ?_, ?_⟩ <;> simp <;> split_ifs <;> omega

lemma invQ_processInter (a : ℕ) (r : FlowRand) (it : Inter) (hr : GoodFlow r)
    (h : InvQ it) : InvQ (processInter a r it).1 := by
  have h1 := invQ_applyFlow r (applyAction a it) hr (invQ_applyAction a it h)
  simpa [processInter, InvQ] using h1

lemma lookup_mem {β : Type} (i : ℕ) (l : List (ℕ × β)) (v : β)
    (h : l.lookup i = some v) : (i, v) ∈ l := by
  induction l with
  | nil => simp [List.lookup] at h
  | cons p l ih =>
    obtain ⟨k, b⟩ := p
    rw [List.lookup_cons] at h
    by_cases hik : i = k
    · subst hik
      simp at h
      subst h
      exact List.mem_cons_self _ _
    · rw [beq_eq_false_iff_ne.mpr hik] at h
      exact List.mem_cons_of_mem _ (ih h)

lemma mem_updEnv (env : List (ℕ × Inter)) (i : ℕ) (v : Inter) (p : ℕ × Inter)
    (h : p ∈ updEnv env i v) : p = (i, v) ∨ p ∈ env := by
  rw [updEnv, List.mem_map] at h
  obtain ⟨q, hq, hqe⟩ := h
  by_cases hqi : q.1 = i
  · left; rw [if_pos hqi] at hqe; exact hqe.symm
  · right; rw [if_neg hqi] at hqe; exact hqe ▸ hq

lemma allInv_stepOne (rand : ℕ → FlowRand) (acc : StepAcc) (ia : ℕ × ℕ)
    (hr : ∀ i, GoodFlow (rand i)) (h : ∀ p ∈ acc.inters, InvQ p.2) :
    ∀ p ∈ (stepOne rand acc ia).inters, InvQ p.2 := by
  intro p hp
  rw [stepOne] at hp
  split at hp
  · exact h p hp
  · next it hl =>
    rcases mem_updEnv _ _ _ _ hp with heq | hmem
    · subst heq
      exact invQ_processInter _ _ _ (hr ia.1) (h _ (lookup_mem _ _ _ hl))
    · exact h p hmem

lemma allInv_foldl (rand : ℕ → FlowRand) (hr : ∀ i, GoodFlow (rand i)) :
    ∀ (actions : List (ℕ × ℕ)) (acc : StepAcc),
      (∀ p ∈ acc.inters, InvQ p.2) →
      ∀ p ∈ (actions.foldl (stepOne rand) acc).inters, InvQ p.2 := by
  intro actions
  induction actions with
  | nil => intro acc h; simpa using h
  | cons ia actions ih =>
    intro acc h
    rw [List.foldl_cons]
    exact ih _ (allInv_stepOne rand acc ia hr h)

lemma allInv_stepEnv (arr : ℕ → ArrRand) (rand : ℕ → FlowRand)
    (env : List (ℕ × Inter)) (actions : List (ℕ × ℕ))
    (ha : ∀ i, GoodArr (arr i)) (hr : ∀ i, GoodFlow (rand i))
    (h : ∀ p ∈ env, InvQ p.2) :
    ∀ p ∈ (stepEnv arr rand env actions).inters, InvQ p.2 := by
  rw [stepEnv]
  apply allInv_foldl rand hr
  intro p hp
  simp only [List.mem_map] at hp
  obtain ⟨q, hq, rfl⟩ := hp
  exact invQ_applyArrival _ _ (ha q.1) (h q hq)

lemma allInv_runEnv : ∀ (ticks : List TickInput) (env : List (ℕ × Inter)),
    (∀ p ∈ env, InvQ p.2) →
    (∀ t ∈ ticks, (∀ i, GoodArr (t.arr i)) ∧ (∀ i, GoodFlow (t.rand i))) →
    ∀ p ∈ runEnv env ticks, InvQ p.2 := by
  intro ticks
  induction ticks with
  | nil => intro env h _; simpa [runEnv] using h
  | cons t ts ih =>
    intro env h hticks
    rw [runEnv]
    exact ih _
      (allInv_stepEnv t.arr t.rand env t.actions
        (hticks t (List.mem_cons_self _ _)).1 (hticks t (List.mem_cons_self _ _)).2 h)
      (fun u hu => hticks u (List.mem_cons_of_mem _ hu))

/-- Claim C5: along any run — queues reinitialized by `reset` to values in
`[0, 10)`, then any sequence of `step` calls with arbitrary action maps and
random draws from their documented supports — every intersection's queues
stay within `[0, 30]`: discharge is floored at 0, and both red-direction
growth and the exogenous arrival process cap at 30. -/
theorem queue_bounds_invariant (env : List (ℕ × Inter)) (ticks : List TickInput)
    (h0 : ∀ p ∈ env, InvQ p.2)
    (hticks : ∀ t ∈ ticks, (∀ i, GoodArr (t.arr i)) ∧ (∀ i, GoodFlow (t.rand i))) :
    (∀ p ∈ runEnv env ticks, InvQ p.2) ∧
    (∀ rNS rEW : ℤ, 0 ≤ rNS → rNS < 10 → 0 ≤ rEW → rEW < 10 →
      InvQ (resetInter rNS rEW)) := by
  refine ⟨allInv_runEnv ticks env h0 hticks, ?_⟩
  intro rNS rEW a b c d
  refine ⟨?_, ?_, ?_, ?_⟩ <;> simp [resetInter] <;> omega

/-- Claim C5 witness: one intersection reset to queues 3/4, one tick with a
switch action, arrivals of one vehicle per direction, and zero flow draws. -/
theorem queue_bounds_invariant_witness :
    (∀ p ∈ [(0, resetInter 3 4)], InvQ p.2) ∧
    (∀ t ∈ [TickInput.mk (fun _ => ⟨true, 1, true, 1⟩) (fun _ => ⟨0, 0⟩) [(0, 1)]],
      (∀ i, GoodArr (t.arr i)) ∧ (∀ i, GoodFlow (t.rand i))) ∧
    ((∀ p ∈ runEnv [(0, resetInter 3 4)]
        [TickInput.mk (fun _ => ⟨true, 1, true, 1⟩) (fun _ => ⟨0, 0⟩) [(0, 1)]],
        InvQ p.2) ∧
      (∀ rNS rEW : ℤ, 0 ≤ rNS → rNS < 10 → 0 ≤ rEW → rEW < 10 →
        InvQ (resetInter rNS rEW))) := by
  have h0 : ∀ p ∈ [((0 : ℕ), resetInter 3 4)], InvQ p.2 := by decide
  have ht : ∀ t ∈ [TickInput.mk (fun _ => ⟨true, 1, true, 1⟩) (fun _ => ⟨0, 0⟩) [(0, 1)]],
      (∀ i, GoodArr (t.arr i)) ∧ (∀ i, GoodFlow (t.rand i)) := by
    intro t htm
    rw [List.mem_singleton] at htm
    subst htm
    constructor
    · intro i
      show GoodArr ⟨true, 1, true, 1⟩
      decide
    · intro i
      show GoodFlow ⟨0, 0⟩
      decide
  exact ⟨h0, ht, queue_bounds_invariant _ _ h0 ht⟩

/-! ### Frame behaviour of step (claim C9) -/

lemma lookup_map_keys {β γ : Type} (f : ℕ → β → γ) (l : List (ℕ × β)) (j : ℕ) :
    (l.map fun p => (p.1, f p.1 p.2)).lookup j = Option.map (f j) (l.lookup j) := by
  induction l with
  | nil => simp [List.lookup]
  | cons p l ih =>
    obtain ⟨k, b⟩ := p
    by_cases hjk : j = k
    · subst hjk
      simp [List.lookup_cons]
    · simp [List.lookup_cons, beq_eq_false_iff_ne.mpr hjk, ih]

lemma lookup_updEnv_ne (env : List (ℕ × Inter)) (i j : ℕ) (v : Inter)
    (hne : j ≠ i) : (updEnv env i v).lookup j = env.lookup j := by
  induction env with
  | nil => rfl
  | cons p l ih =>
    obtain ⟨k, b⟩ := p
    by_cases hki : k = i
    · subst hki
      show List.lookup j ((if k = k then (k, v) else (k, b)) :: updEnv l k v) = _
      rw [if_pos rfl, List.lookup_cons, List.lookup_cons,
        beq_eq_false_iff_ne.mpr hne]
      exact ih
    · show List.lookup j ((if k = i then (i, v) else (k, b)) :: updEnv l i v) = _
      rw [if_neg hki, List.lookup_cons, List.lookup_cons]
      cases j == k
      · exact ih
      · rfl

lemma lookup_append_single {β : Type} (l : List (ℕ × β)) (i j : ℕ) (x : β)
    (hne : j ≠ i) : (l ++ [(i, x)]).lookup j = l.lookup j := by
  induction l with
  | nil =>
    rw [List.nil_append, List.lookup_cons, beq_eq_false_iff_ne.mpr hne]
  | cons p l ih =>
    obtain ⟨k, b⟩ := p
    rw [List.cons_append, List.lookup_cons, List.lookup_cons]
    cases j == k
    · exact ih
    · rfl

lemma stepOne_skip (rand : ℕ → FlowRand) (acc : StepAcc) (i a : ℕ)
    (h : acc.inters.lookup i = none) : stepOne rand acc (i, a) = acc := by
  simp [stepOne, h]

lemma stepOne_frame (rand : ℕ → FlowRand) (acc : StepAcc) (ia : ℕ × ℕ) (j : ℕ)
    (hji : j ≠ ia.1) :
    (stepOne rand acc ia).inters.lookup j = acc.inters.lookup j ∧
    (stepOne rand acc ia).rewards.lookup j = acc.rewards.lookup j ∧
    (stepOne rand acc ia).info.lookup j = acc.info.lookup j := by
  rw [stepOne]
  split
  · exact ⟨rfl, rfl, rfl⟩
  · exact ⟨lookup_updEnv_ne _ _ _ _ hji, lookup_append_single _ _ _ _ hji,
      lookup_append_single _ _ _ _ hji⟩

lemma foldl_stepOne_frame (rand : ℕ → FlowRand) (j : ℕ) :
    ∀ (actions : List (ℕ × ℕ)) (acc : StepAcc), j ∉ actions.map Prod.fst →
      (actions.foldl (stepOne rand) acc).inters.lookup j = acc.inters.lookup j ∧
      (actions.foldl (stepOne rand) acc).rewards.lookup j = acc.rewards.lookup j ∧
      (actions.foldl (stepOne rand) acc).info.lookup j = acc.info.lookup j := by
  intro actions
  induction actions with
  | nil => intro acc _; exact ⟨rfl, rfl, rfl⟩
  | cons ia actions ih =>
    intro acc hj
    simp only [List.map_cons, List.mem_cons, not_or] at hj
    obtain ⟨hji, htail⟩ := hj
    rw [List.foldl_cons]
    obtain ⟨i1, i2, i3⟩ := ih (stepOne rand acc ia) htail
    obtain ⟨s1, s2, s3⟩ := stepOne_frame rand acc ia j hji
    exact ⟨i1.trans s1, i2.trans s2, i3.trans s3⟩

/-- Claim C9: `step` touches exactly the intersections named in the actions
map. An id absent from both simply never appears; an id in the actions map
that is not an intersection is silently skipped, changing nothing; and an
existing intersection with no supplied action is changed only by the
exogenous arrival process and receives no reward and no info entry. -/
theorem step_frame_actions (arr : ℕ → ArrRand) (rand : ℕ → FlowRand)
    (env : List (ℕ × Inter)) (actions : List (ℕ × ℕ)) (j : ℕ)
    (hj : j ∉ actions.map Prod.fst) :
    (stepEnv arr rand env actions).inters.lookup j =
      Option.map (applyArrival (arr j)) (env.lookup j) ∧
    (stepEnv arr rand env actions).rewards.lookup j = none ∧
    (stepEnv arr rand env actions).info.lookup j = none ∧
    (∀ (i a : ℕ) (acc : StepAcc), acc.inters.lookup i = none →
      stepOne rand acc (i, a) = acc) := by
  obtain ⟨f1, f2, f3⟩ := foldl_stepOne_frame rand j actions
    ⟨env.map fun p => (p.1, applyArrival (arr p.1) p.2), [], []⟩ hj
  refine ⟨?_, ?_, ?_, fun i a acc h => stepOne_skip rand acc i a h⟩
  · show (List.foldl (stepOne rand)
        ⟨env.map fun p => (p.1, applyArrival (arr p.1) p.2), [], []⟩ actions).inters.lookup j = _
    rw [f1]
    exact lookup_map_keys (fun i it => applyArrival (arr i) it) env j
  · show (List.foldl (stepOne rand)
        ⟨env.map fun p => (p.1, applyArrival (arr p.1) p.2), [], []⟩ actions).rewards.lookup j = _
    rw [f2]
    rfl
  · show (List.foldl (stepOne rand)
        ⟨env.map fun p => (p.1, applyArrival (arr p.1) p.2), [], []⟩ actions).info.lookup j = _
    rw [f3]
    rfl

/-- Claim C9 witness: an environment with the single intersection 0, an
actions map naming only ids 1 and 5 (5 non-existent), checked at id 0. -/
theorem step_frame_actions_witness :
    ((0 : ℕ) ∉ ([(1, 0), (5, 2)] : List (ℕ × ℕ)).map Prod.fst) ∧
    ((stepEnv (fun _ => ⟨false, 1, false, 1⟩) (fun _ => ⟨0, 0⟩)
        [(0, ⟨1, 2, 0, 0⟩)] [(1, 0), (5, 2)]).inters.lookup 0 =
      Option.map (applyArrival ((fun _ : ℕ => (⟨false, 1, false, 1⟩ : ArrRand)) 0))
        (([(0, (⟨1, 2, 0, 0⟩ : Inter))] : List (ℕ × Inter)).lookup 0) ∧
      (stepEnv (fun _ => ⟨false, 1, false, 1⟩) (fun _ => ⟨0, 0⟩)
        [(0, ⟨1, 2, 0, 0⟩)] [(1, 0), (5, 2)]).rewards.lookup 0 = none ∧
      (stepEnv (fun _ => ⟨false, 1, false, 1⟩) (fun _ => ⟨0, 0⟩)
        [(0, ⟨1, 2, 0, 0⟩)] [(1, 0), (5, 2)]).info.lookup 0 = none ∧
      (∀ (i a : ℕ) (acc : StepAcc), acc.inters.lookup i = none →
        stepOne (fun _ => ⟨0, 0⟩) acc (i, a) = acc)) :=
  ⟨by decide, step_frame_actions (fun _ => ⟨false, 1, false, 1⟩) (fun _ => ⟨0, 0⟩)
    [(0, ⟨1, 2, 0, 0⟩)] [(1, 0), (5, 2)] 0 (by decide)⟩

/-! ### Intersection placement (claim C10) -/

lemma length_prod_map {β γ δ : Type} (l1 : List β) (l2 : List γ) (g : β → γ → δ) :
    (l1.flatMap fun r => l2.map (g r)).length = l1.length * l2.length := by
  induction l1 with
  | nil => simp
  | cons b l ih =>
    simp [ih]
    ring

lemma length_linspaceInt (stop : ℤ) (num : ℕ) : (linspaceInt stop num).length = num := by
  rw [linspaceInt, List.length_map, List.length_range]

/-- Claim C10: environment construction places exactly
`floor(sqrt(numIntersections))^2` intersections, with consecutive ids
starting at 0; this equals `numIntersections` exactly for perfect-square
counts, and for any non-square count strictly fewer intersections are
placed than requested. -/
theorem placement_floor_sqrt (rows cols n : ℕ) :
    (initIntersections rows cols n).map Prod.fst =
      List.range (Nat.sqrt n * Nat.sqrt n) ∧
    (initIntersections rows cols n).length = Nat.sqrt n * Nat.sqrt n ∧
    ((∃ k, k * k = n) ↔ Nat.sqrt n * Nat.sqrt n = n) ∧
    ((initIntersections rows cols n).length = n ↔ ∃ k, k * k = n) ∧
    ((¬ ∃ k, k * k = n) → (initIntersections rows cols n).length < n) := by
  have hlen : (gridPositions rows cols n).length = Nat.sqrt n * Nat.sqrt n := by
    rw [gridPositions, length_prod_map, length_linspaceInt, length_linspaceInt]
  have hsq : (∃ k, k * k = n) ↔ Nat.sqrt n * Nat.sqrt n = n := by
    constructor
    · rintro ⟨k, rfl⟩
      rw [Nat.sqrt_eq]
    · intro h
      exact ⟨Nat.sqrt n, h⟩
  have hleng : (initIntersections rows cols n).length = Nat.sqrt n * Nat.sqrt n := by
    rw [initIntersections, List.length_map, List.enum_length, hlen]
  have hfst : (initIntersections rows cols n).map Prod.fst =
      List.range (Nat.sqrt n * Nat.sqrt n) := by
    rw [initIntersections, List.map_map]
    have hcomp : (Prod.fst ∘ fun p : ℕ × (ℤ × ℤ) =>
        (p.1, (p.2, (⟨0, 0, 0, 0⟩ : Inter)))) = Prod.fst := rfl
    rw [hcomp, List.enum_map_fst, hlen]
  refine ⟨hfst, hleng, hsq, ?_, ?_⟩
  · rw [hleng]
    exact hsq.symm
  · intro hns
    have hle : Nat.sqrt n * Nat.sqrt n ≤ n := Nat.sqrt_le n
    have hne : Nat.sqrt n * Nat.sqrt n ≠ n := fun h => hns (hsq.mpr h)
    omega

/-- Claim C10 witness: requesting 5 intersections on a 10×10 grid places
only `floor(sqrt 5)^2 = 4` of them. -/
theorem placement_floor_sqrt_witness :
    Nat.sqrt 5 * Nat.sqrt 5 ≠ 5 ∧ (initIntersections 10 10 5).length < 5 := by
  have h := placement_floor_sqrt 10 10 5
  have h2 : Nat.sqrt 5 = 2 := (Nat.eq_sqrt.mpr ⟨by norm_num, by norm_num⟩).symm
  have hns : Nat.sqrt 5 * Nat.sqrt 5 ≠ 5 := by rw [h2]; norm_num
  exact ⟨hns, h.2.2.2.2 (fun hx => hns (h.2.2.1.mp hx))⟩

end RLTraffic
